import Mathlib

/-!
# The Topic aggregate of `models/topics.go`

A shallow embedding of the in-memory logic of `Topic`: the subscriber list
(`Subscribed`, `AddSubscriber`, `RemoveSubscriber`), the contributor view
(`Authors`) and the last-activity timestamp (`LastUpdate`).

Go maps are embedded as association lists with pairwise distinct keys
(`GoMap`).  A `range` over a Go map visits the entries in an order the language
leaves unspecified; every function that ranges over a map therefore takes a
`RangeOrder`, an arbitrary rearrangement of the entries, and every theorem
quantifies over all of them.
-/

namespace Saloon

/-! ## Values -/

/-- The type `uuid.UUID` is `[16]byte`; `==` on it is byte-wise equality.  The
sixteen bytes are read as one number below `2 ^ 128`. -/
abbrev UUID := Fin (2 ^ 128)

/-- Modelled from the spec: the standard library's `time.Time`, reduced to what
`LastUpdate` observes: the instant (nanoseconds on the absolute time line) and
the offset in seconds of the location the value is displayed in (`0` is UTC). -/
structure Time where
  instant : Int
  offset : Int
  deriving DecidableEq, Repr

/-- The method `Time.UTC`: the same instant, with the location set to UTC. -/
def Time.UTC (a : Time) : Time :=
  { instant := a.instant, offset := 0 }

/-- The method `Time.After`: whether the instant of `a` is after that of `b`. -/
def Time.After (a b : Time) : Bool :=
  decide (b.instant < a.instant)

/-- Modelled from the spec: the record `User`, declared outside `topics.go`.
Only `ID` is read by the code; `Name` stands for the remaining columns, so that
two records with one identifier can still differ. -/
structure User where
  ID : UUID
  Name : String
  deriving DecidableEq, Repr

/-- Modelled from the spec: the record `Category`, declared outside `topics.go`
and never read by it. -/
structure Category where
  ID : UUID
  Title : String
  deriving DecidableEq, Repr

/-- Modelled from the spec: the record `Reply`, declared outside `topics.go`,
with the four fields the code reads.  The pointer `Author *User` is an
`Option`: `none` is the nil pointer. -/
structure Reply where
  CreatedAt : Time
  UpdatedAt : Time
  AuthorID : UUID
  Author : Option User
  deriving DecidableEq, Repr

/-- The struct `Topic`.  The pointers `Author` and `Category` are `Option`s
(`none` is nil); `Subscribers` (`slices.UUID`, a `[]uuid.UUID`) and `Replies`
(`[]Reply`) are lists. -/
structure Topic where
  ID : UUID
  CreatedAt : Time
  UpdatedAt : Time
  Title : String
  Content : String
  AuthorID : UUID
  CategoryID : UUID
  Deleted : Bool
  Subscribers : List UUID
  Author : Option User
  Category : Option Category
  Replies : List Reply
  deriving DecidableEq, Repr

/-! ## Go maps -/

/-- A Go `map[κ]ν`: the entries, in the order the keys were first assigned.
The keys of a map built with `GoMap.empty` and `GoMap.assign` are distinct. -/
abbrev GoMap (κ ν : Type) := List (κ × ν)

/-- The map made by `make(map[κ]ν)`. -/
def GoMap.empty {κ ν : Type} : GoMap κ ν := []

/-- The assignment `m[k] = v`: replaces the value stored under `k`, or adds
the entry when `k` is not a key. -/
def GoMap.assign {κ ν : Type} [DecidableEq κ] : GoMap κ ν → κ → ν → GoMap κ ν
  | [], k, v => [(k, v)]
  | (k0, v0) :: rest, k, v =>
    if k0 = k then (k, v) :: rest else (k0, v0) :: GoMap.assign rest k v

/-- The second result of `_, ok := m[k]`: whether `k` is a key of `m`. -/
def GoMap.has {κ ν : Type} [DecidableEq κ] : GoMap κ ν → κ → Bool
  | [], _ => false
  | (k0, _) :: rest, k => if k0 = k then true else GoMap.has rest k

/-- The keys of a map, in storage order. -/
def GoMap.keys {κ ν : Type} (m : GoMap κ ν) : List κ := m.map Prod.fst

/-- An iteration order for `range` over a `map[κ]ν`: some rearrangement of the
entries.  Go leaves the order unspecified and it may change from one loop to
the next, so nothing but `perm` is known about `visit`. -/
structure RangeOrder (κ ν : Type) where
  visit : GoMap κ ν → List (κ × ν)
  perm : ∀ m, (visit m).Perm m

/-- The order that visits the entries as they were first assigned. -/
def RangeOrder.insertion (κ ν : Type) : RangeOrder κ ν :=
  ⟨fun m => m, fun m => List.Perm.refl m⟩

/-- The order that visits the most recently added entry first. -/
def RangeOrder.reversed (κ ν : Type) : RangeOrder κ ν :=
  ⟨fun m => m.reverse, fun m => List.reverse_perm m⟩

/-! ## Operations of `Topic` -/

/-- The loop of `Topic.Subscribed`: returns `true` at the first element equal
to `id`, `false` when the slice is exhausted. -/
def Subscribed.scan : List UUID → UUID → Bool
  | [], _ => false
  | usr :: rest, id => if usr = id then true else Subscribed.scan rest id

/-- The method `Topic.Subscribed`. -/
def Topic.Subscribed (t : Topic) (id : UUID) : Bool :=
  Subscribed.scan t.Subscribers id

/-- The loop `for sub := range set { subs = append(subs, sub) }` shared by
`AddSubscriber` and `RemoveSubscriber`, started from the empty slice. -/
def collectKeys (o : RangeOrder UUID Unit) (set : GoMap UUID Unit) : List UUID :=
  (o.visit set).foldl (fun subs e => subs ++ [e.1]) []

/-- The method `Topic.AddSubscriber`; the receiver is a pointer, the result is
the topic as the call leaves it. -/
def Topic.AddSubscriber (o : RangeOrder UUID Unit) (t : Topic) (id : UUID) : Topic :=
  let set0 : GoMap UUID Unit := GoMap.assign GoMap.empty id ()
  let set1 := t.Subscribers.foldl (fun set sub => GoMap.assign set sub ()) set0
  { t with Subscribers := collectKeys o set1 }

/-- The method `Topic.RemoveSubscriber`; the receiver is a pointer, the result
is the topic as the call leaves it. -/
def Topic.RemoveSubscriber (o : RangeOrder UUID Unit) (t : Topic) (id : UUID) : Topic :=
  let set1 := t.Subscribers.foldl
    (fun set sub => if sub ≠ id then GoMap.assign set sub () else set)
    (GoMap.empty : GoMap UUID Unit)
  { t with Subscribers := collectKeys o set1 }

/-- One iteration of the loop over `t.Replies` in `Topic.Authors`. -/
def Authors.step (set : GoMap UUID User) (reply : Reply) : GoMap UUID User :=
  if GoMap.has set reply.AuthorID then set
  else
    match reply.Author with
    | some a => GoMap.assign set reply.AuthorID a
    | none => set

/-- The loop `for _, v := range set { authors = append(authors, v) }` of
`Topic.Authors`, started from the empty slice. -/
def collectValues (o : RangeOrder UUID User) (set : GoMap UUID User) : List User :=
  (o.visit set).foldl (fun authors e => authors ++ [e.2]) []

/-- The method `Topic.Authors`.  The first statement dereferences `t.Author`:
with a nil pointer the call panics, which is `none` here. -/
def Topic.Authors (o : RangeOrder UUID User) (t : Topic) : Option (List User) :=
  match t.Author with
  | none => none
  | some author =>
    let set0 : GoMap UUID User := GoMap.assign GoMap.empty author.ID author
    let set1 := t.Replies.foldl Authors.step set0
    some (collectValues o set1)

/-- The closure `last` of `Topic.LastUpdate`. -/
def LastUpdate.last (a b : Time) : Time :=
  if a.UTC.After b.UTC then a.UTC else b.UTC

/-- The method `Topic.LastUpdate`. -/
def Topic.LastUpdate (t : Topic) : Time :=
  t.Replies.foldl
    (fun v reply => LastUpdate.last (LastUpdate.last v reply.CreatedAt) reply.UpdatedAt)
    (LastUpdate.last t.CreatedAt t.UpdatedAt)

/-- A topic with the given subscribers and every other field blank. -/
def Topic.ofSubscribers (subs : List UUID) : Topic :=
  { ID := 0, CreatedAt := ⟨0, 0⟩, UpdatedAt := ⟨0, 0⟩, Title := "", Content := "",
    AuthorID := 0, CategoryID := 0, Deleted := false, Subscribers := subs,
    Author := none, Category := none, Replies := [] }

/-- A topic with the given author record and replies and every other field
blank. -/
def Topic.ofThread (author : Option User) (replies : List Reply) : Topic :=
  { ID := 0, CreatedAt := ⟨0, 0⟩, UpdatedAt := ⟨0, 0⟩, Title := "", Content := "",
    AuthorID := 0, CategoryID := 0, Deleted := false, Subscribers := [],
    Author := author, Category := none, Replies := replies }

/-- A topic with the given timestamps and replies and every other field
blank. -/
def Topic.ofTimes (created updated : Time) (replies : List Reply) : Topic :=
  { ID := 0, CreatedAt := created, UpdatedAt := updated, Title := "", Content := "",
    AuthorID := 0, CategoryID := 0, Deleted := false, Subscribers := [],
    Author := none, Category := none, Replies := replies }

/-- The map `set` of `Topic.Authors` when its loop over the replies ends, for
a topic whose author record is `author`. -/
def Authors.collect (author : User) (replies : List Reply) : GoMap UUID User :=
  replies.foldl Authors.step (GoMap.assign GoMap.empty author.ID author)

/-- The keys of the map are distinct and every record is stored under its own
identifier. -/
def KeyedByID (set : GoMap UUID User) : Prop :=
  (GoMap.keys set).Nodup ∧ ∀ e ∈ set, e.2.ID = e.1

/-! ## Lemmas on Go maps -/

theorem GoMap.mem_keys_assign {κ ν : Type} [DecidableEq κ] (m : GoMap κ ν) (k : κ) (v : ν)
    (j : κ) : j ∈ GoMap.keys (GoMap.assign m k v) ↔ j = k ∨ j ∈ GoMap.keys m := by
  induction m with
  | nil => simp [GoMap.assign, GoMap.keys]
  | cons e rest ih =>
    obtain ⟨k0, v0⟩ := e
    simp only [GoMap.assign]
    split
    · rename_i h
      subst h
      simp [GoMap.keys]
    · simp only [GoMap.keys, List.map_cons, List.mem_cons] at ih ⊢
      rw [ih]
      tauto

theorem GoMap.nodup_keys_assign {κ ν : Type} [DecidableEq κ] (m : GoMap κ ν) (k : κ) (v : ν)
    (h : (GoMap.keys m).Nodup) : (GoMap.keys (GoMap.assign m k v)).Nodup := by
  induction m with
  | nil => simp [GoMap.assign, GoMap.keys]
  | cons e rest ih =>
    obtain ⟨k0, v0⟩ := e
    simp only [GoMap.keys, List.map_cons, List.nodup_cons] at h
    simp only [GoMap.assign]
    split
    · rename_i hk
      subst hk
      simpa [GoMap.keys] using h
    · rename_i hk
      have hmem := GoMap.mem_keys_assign rest k v k0
      simp only [GoMap.keys, List.map_cons, List.nodup_cons]
      refine ⟨?_, ih h.2⟩
      intro hin
      rcases hmem.mp hin with h1 | h1
      · exact hk h1
      · exact h.1 h1

theorem GoMap.has_iff {κ ν : Type} [DecidableEq κ] (m : GoMap κ ν) (k : κ) :
    GoMap.has m k = true ↔ k ∈ GoMap.keys m := by
  induction m with
  | nil => simp [GoMap.has, GoMap.keys]
  | cons e rest ih =>
    obtain ⟨k0, v0⟩ := e
    simp only [GoMap.has]
    split
    · rename_i h
      subst h
      simp [GoMap.keys]
    · rename_i h
      simp only [GoMap.keys, List.map_cons, List.mem_cons] at ih ⊢
      rw [ih]
      constructor
      · intro h1
        exact Or.inr h1
      · rintro (h1 | h1)
        · exact absurd h1.symm h
        · exact h1

theorem foldl_snoc_eq_map {α β : Type} (f : α → β) (l : List α) (acc : List β) :
    l.foldl (fun out e => out ++ [f e]) acc = acc ++ l.map f := by
  induction l generalizing acc with
  | nil => simp
  | cons a rest ih => simp [ih]

theorem collectKeys_perm (o : RangeOrder UUID Unit) (set : GoMap UUID Unit) :
    (collectKeys o set).Perm (GoMap.keys set) := by
  unfold collectKeys GoMap.keys
  rw [foldl_snoc_eq_map]
  simpa using (o.perm set).map Prod.fst

theorem collectValues_perm (o : RangeOrder UUID User) (set : GoMap UUID User) :
    (collectValues o set).Perm (set.map Prod.snd) := by
  unfold collectValues
  rw [foldl_snoc_eq_map]
  simpa using (o.perm set).map Prod.snd

/-! ## The map built by `AddSubscriber` and by `RemoveSubscriber` -/

theorem mem_keys_addLoop (subs : List UUID) (set : GoMap UUID Unit) (j : UUID) :
    j ∈ GoMap.keys (subs.foldl (fun set sub => GoMap.assign set sub ()) set) ↔
      j ∈ GoMap.keys set ∨ j ∈ subs := by
  induction subs generalizing set with
  | nil => simp
  | cons s rest ih =>
    simp only [List.foldl_cons, List.mem_cons]
    rw [ih, GoMap.mem_keys_assign]
    tauto

theorem nodup_keys_addLoop (subs : List UUID) (set : GoMap UUID Unit)
    (h : (GoMap.keys set).Nodup) :
    (GoMap.keys (subs.foldl (fun set sub => GoMap.assign set sub ()) set)).Nodup := by
  induction subs generalizing set with
  | nil => simpa using h
  | cons s rest ih =>
    simp only [List.foldl_cons]
    exact ih _ (GoMap.nodup_keys_assign set s () h)

theorem mem_keys_removeLoop (id : UUID) (subs : List UUID) (set : GoMap UUID Unit) (j : UUID) :
    j ∈ GoMap.keys (subs.foldl
        (fun set sub => if sub ≠ id then GoMap.assign set sub () else set) set) ↔
      j ∈ GoMap.keys set ∨ (j ∈ subs ∧ j ≠ id) := by
  induction subs generalizing set with
  | nil => simp
  | cons s rest ih =>
    simp only [List.foldl_cons, List.mem_cons]
    rw [ih]
    by_cases hs : s = id
    · subst hs
      simp only [ne_eq, not_true_eq_false, if_false]
      constructor
      · rintro (h | h)
        · exact Or.inl h
        · exact Or.inr ⟨Or.inr h.1, h.2⟩
      · rintro (h | ⟨h1 | h1, h2⟩)
        · exact Or.inl h
        · exact absurd h1 h2
        · exact Or.inr ⟨h1, h2⟩
    · simp only [ne_eq, hs, not_false_eq_true, if_true]
      rw [GoMap.mem_keys_assign]
      constructor
      · rintro ((h | h) | h)
        · exact Or.inr ⟨Or.inl h, h ▸ hs⟩
        · exact Or.inl h
        · exact Or.inr ⟨Or.inr h.1, h.2⟩
      · rintro (h | ⟨h1 | h1, h2⟩)
        · exact Or.inl (Or.inr h)
        · exact Or.inl (Or.inl h1)
        · exact Or.inr ⟨h1, h2⟩

theorem nodup_keys_removeLoop (id : UUID) (subs : List UUID) (set : GoMap UUID Unit)
    (h : (GoMap.keys set).Nodup) :
    (GoMap.keys (subs.foldl
        (fun set sub => if sub ≠ id then GoMap.assign set sub () else set) set)).Nodup := by
  induction subs generalizing set with
  | nil => simpa using h
  | cons s rest ih =>
    simp only [List.foldl_cons]
    apply ih
    split
    · exact GoMap.nodup_keys_assign set s () h
    · exact h

theorem scan_iff (subs : List UUID) (id : UUID) :
    Subscribed.scan subs id = true ↔ id ∈ subs := by
  induction subs with
  | nil => simp [Subscribed.scan]
  | cons s rest ih =>
    simp only [Subscribed.scan, List.mem_cons]
    split
    · rename_i h
      simp [h]
    · rename_i h
      rw [ih]
      constructor
      · intro h1
        exact Or.inr h1
      · rintro (h1 | h1)
        · exact absurd h1.symm h
        · exact h1

theorem mem_addSubscriber (o : RangeOrder UUID Unit) (t : Topic) (x y : UUID) :
    y ∈ (t.AddSubscriber o x).Subscribers ↔ y = x ∨ y ∈ t.Subscribers := by
  unfold Topic.AddSubscriber
  simp only
  rw [(collectKeys_perm o _).mem_iff, mem_keys_addLoop, GoMap.mem_keys_assign]
  simp [GoMap.empty, GoMap.keys]

theorem nodup_addSubscriber (o : RangeOrder UUID Unit) (t : Topic) (x : UUID) :
    (t.AddSubscriber o x).Subscribers.Nodup := by
  unfold Topic.AddSubscriber
  simp only
  rw [(collectKeys_perm o _).nodup_iff]
  apply nodup_keys_addLoop
  simp [GoMap.assign, GoMap.empty, GoMap.keys]

theorem mem_removeSubscriber (o : RangeOrder UUID Unit) (t : Topic) (x y : UUID) :
    y ∈ (t.RemoveSubscriber o x).Subscribers ↔ y ≠ x ∧ y ∈ t.Subscribers := by
  unfold Topic.RemoveSubscriber
  simp only
  rw [(collectKeys_perm o _).mem_iff, mem_keys_removeLoop]
  simp [GoMap.empty, GoMap.keys]
  tauto

theorem nodup_removeSubscriber (o : RangeOrder UUID Unit) (t : Topic) (x : UUID) :
    (t.RemoveSubscriber o x).Subscribers.Nodup := by
  unfold Topic.RemoveSubscriber
  simp only
  rw [(collectKeys_perm o _).nodup_iff]
  apply nodup_keys_removeLoop
  simp [GoMap.empty, GoMap.keys]

/-! ## The map built by `Authors` -/

theorem GoMap.mem_assign {κ ν : Type} [DecidableEq κ] (m : GoMap κ ν) (k : κ) (v : ν)
    (e : κ × ν) (h : e ∈ GoMap.assign m k v) : e = (k, v) ∨ e ∈ m := by
  induction m with
  | nil => simpa [GoMap.assign] using h
  | cons e0 rest ih =>
    obtain ⟨k0, v0⟩ := e0
    simp only [GoMap.assign] at h
    split at h
    · rcases List.mem_cons.mp h with h1 | h1
      · exact Or.inl h1
      · exact Or.inr (List.mem_cons_of_mem _ h1)
    · rcases List.mem_cons.mp h with h1 | h1
      · exact Or.inr (h1 ▸ List.mem_cons_self _ _)
      · rcases ih h1 with h2 | h2
        · exact Or.inl h2
        · exact Or.inr (List.mem_cons_of_mem _ h2)

theorem GoMap.mem_assign_of_ne {κ ν : Type} [DecidableEq κ] (m : GoMap κ ν) (k : κ) (v : ν)
    (e : κ × ν) (h : e ∈ m) (hk : e.1 ≠ k) : e ∈ GoMap.assign m k v := by
  induction m with
  | nil => simp at h
  | cons e0 rest ih =>
    obtain ⟨k0, v0⟩ := e0
    simp only [GoMap.assign]
    rcases List.mem_cons.mp h with h1 | h1
    · subst h1
      have hk0 : ¬ k0 = k := hk
      simp [hk0]
    · split
      · exact List.mem_cons_of_mem _ h1
      · exact List.mem_cons_of_mem _ (ih h1)

theorem mem_keys_of_mem {κ ν : Type} (m : GoMap κ ν) (e : κ × ν) (h : e ∈ m) :
    e.1 ∈ GoMap.keys m :=
  List.mem_map_of_mem Prod.fst h

theorem Authors.step_keeps (set : GoMap UUID User) (reply : Reply) (e : UUID × User)
    (h : e ∈ set) : e ∈ Authors.step set reply := by
  unfold Authors.step
  split
  · exact h
  · rename_i hhas
    split
    · apply GoMap.mem_assign_of_ne _ _ _ _ h
      intro hk
      exact hhas ((GoMap.has_iff set reply.AuthorID).mpr (hk ▸ mem_keys_of_mem set e h))
    · exact h

theorem Authors.loop_keeps (replies : List Reply) (set : GoMap UUID User) (e : UUID × User)
    (h : e ∈ set) : e ∈ replies.foldl Authors.step set := by
  induction replies generalizing set with
  | nil => simpa using h
  | cons r rest ih =>
    simp only [List.foldl_cons]
    exact ih _ (Authors.step_keeps set r e h)

theorem Authors.step_keyed (set : GoMap UUID User) (reply : Reply)
    (hr : ∀ u, reply.Author = some u → u.ID = reply.AuthorID) (h : KeyedByID set) :
    KeyedByID (Authors.step set reply) := by
  unfold Authors.step
  split
  · exact h
  · split
    · rename_i a ha
      refine ⟨GoMap.nodup_keys_assign set _ a h.1, ?_⟩
      intro e he
      rcases GoMap.mem_assign set _ a e he with h1 | h1
      · subst h1
        exact hr a ha
      · exact h.2 e h1
    · exact h

theorem Authors.loop_keyed (replies : List Reply) (set : GoMap UUID User)
    (hr : ∀ r ∈ replies, ∀ u, r.Author = some u → u.ID = r.AuthorID) (h : KeyedByID set) :
    KeyedByID (replies.foldl Authors.step set) := by
  induction replies generalizing set with
  | nil => simpa using h
  | cons r rest ih =>
    simp only [List.foldl_cons]
    apply ih
    · exact fun r1 hr1 => hr r1 (List.mem_cons_of_mem _ hr1)
    · exact Authors.step_keyed set r (hr r (List.mem_cons_self _ _)) h

theorem KeyedByID.ids_eq_keys (set : GoMap UUID User) (h : ∀ e ∈ set, e.2.ID = e.1) :
    (set.map Prod.snd).map User.ID = GoMap.keys set := by
  induction set with
  | nil => rfl
  | cons e rest ih =>
    simp only [List.map_cons, GoMap.keys]
    rw [h e (List.mem_cons_self _ _)]
    congr 1
    exact ih (fun e1 he1 => h e1 (List.mem_cons_of_mem _ he1))

theorem GoMap.value_unique {κ ν : Type} (m : GoMap κ ν) (h : (GoMap.keys m).Nodup) (k : κ)
    (v v2 : ν) (h1 : (k, v) ∈ m) (h2 : (k, v2) ∈ m) : v2 = v := by
  induction m with
  | nil => simp at h1
  | cons e rest ih =>
    simp only [GoMap.keys, List.map_cons, List.nodup_cons] at h
    rcases List.mem_cons.mp h1 with e1 | e1 <;> rcases List.mem_cons.mp h2 with e2 | e2
    · rw [← e1] at e2
      exact (Prod.mk.inj e2).2
    · exact absurd (mem_keys_of_mem rest _ e2) (by rw [← e1] at h; exact h.1)
    · exact absurd (mem_keys_of_mem rest _ e1) (by rw [← e2] at h; exact h.1)
    · exact ih h.2 e1 e2

theorem Authors.mem_keys_step (set : GoMap UUID User) (reply : Reply) (j : UUID) :
    j ∈ GoMap.keys (Authors.step set reply) ↔
      j ∈ GoMap.keys set ∨ (reply.AuthorID = j ∧ reply.Author.isSome = true) := by
  unfold Authors.step
  split
  · rename_i hhas
    have hk := (GoMap.has_iff set reply.AuthorID).mp hhas
    constructor
    · exact Or.inl
    · rintro (h | ⟨h, _⟩)
      · exact h
      · exact h ▸ hk
  · split
    · rename_i a ha
      rw [GoMap.mem_keys_assign, ha]
      simp only [Option.isSome_some, and_true]
      constructor
      · rintro (h | h)
        · exact Or.inr h.symm
        · exact Or.inl h
      · rintro (h | h)
        · exact Or.inr h
        · exact Or.inl h.symm
    · rename_i ha
      rw [ha]
      simp

theorem Authors.mem_keys_loop (replies : List Reply) (set : GoMap UUID User) (j : UUID) :
    j ∈ GoMap.keys (replies.foldl Authors.step set) ↔
      j ∈ GoMap.keys set ∨ ∃ r ∈ replies, r.AuthorID = j ∧ r.Author.isSome = true := by
  induction replies generalizing set with
  | nil => simp
  | cons r rest ih =>
    simp only [List.foldl_cons, List.mem_cons]
    rw [ih, Authors.mem_keys_step]
    constructor
    · rintro ((h | h) | ⟨r2, hr2, h⟩)
      · exact Or.inl h
      · exact Or.inr ⟨r, Or.inl rfl, h⟩
      · exact Or.inr ⟨r2, Or.inr hr2, h⟩
    · rintro (h | ⟨r2, hr2 | hr2, h⟩)
      · exact Or.inl (Or.inl h)
      · exact Or.inl (Or.inr (hr2 ▸ h))
      · exact Or.inr ⟨r2, hr2, h⟩

theorem Authors.nodup_keys_loop (replies : List Reply) (set : GoMap UUID User)
    (h : (GoMap.keys set).Nodup) : (GoMap.keys (replies.foldl Authors.step set)).Nodup := by
  induction replies generalizing set with
  | nil => simpa using h
  | cons r rest ih =>
    simp only [List.foldl_cons]
    apply ih
    unfold Authors.step
    split
    · exact h
    · split
      · exact GoMap.nodup_keys_assign set _ _ h
      · exact h

theorem Authors.nodup_keys_collect (a : User) (replies : List Reply) :
    (GoMap.keys (Authors.collect a replies)).Nodup := by
  unfold Authors.collect
  apply Authors.nodup_keys_loop
  simp [GoMap.assign, GoMap.empty, GoMap.keys]

theorem Authors.keyed_collect (a : User) (replies : List Reply)
    (hr : ∀ r ∈ replies, ∀ u, r.Author = some u → u.ID = r.AuthorID) :
    KeyedByID (Authors.collect a replies) := by
  unfold Authors.collect
  apply Authors.loop_keyed replies _ hr
  constructor
  · simp [GoMap.assign, GoMap.empty, GoMap.keys]
  · intro e he
    simp only [GoMap.assign, GoMap.empty, List.mem_singleton] at he
    subst he
    rfl

theorem Authors.mem_keys_collect (a : User) (replies : List Reply) (j : UUID) :
    j ∈ GoMap.keys (Authors.collect a replies) ↔
      j = a.ID ∨ ∃ r ∈ replies, r.AuthorID = j ∧ r.Author.isSome = true := by
  unfold Authors.collect
  rw [Authors.mem_keys_loop]
  simp [GoMap.assign, GoMap.empty, GoMap.keys]

theorem Authors.collect_split (a : User) (pre post : List Reply) (r : Reply) :
    Authors.collect a (pre ++ r :: post) =
      post.foldl Authors.step (Authors.step (Authors.collect a pre) r) := by
  unfold Authors.collect
  rw [List.foldl_append, List.foldl_cons]

theorem authors_eq_collect (o : RangeOrder UUID User) (t : Topic) (a : User)
    (ha : t.Author = some a) :
    t.Authors o = some (collectValues o (Authors.collect a t.Replies)) := by
  unfold Topic.Authors Authors.collect
  rw [ha]

/-! ## The fold of `LastUpdate` -/

theorem LastUpdate.last_eq (a b : Time) :
    LastUpdate.last a b = ⟨max a.instant b.instant, 0⟩ := by
  unfold LastUpdate.last Time.After Time.UTC
  by_cases h : b.instant < a.instant
  · simp [h, max_eq_left (le_of_lt h)]
  · simp [h, max_eq_right (not_lt.mp h)]

theorem LastUpdate.loop_ge (replies : List Reply) (v : Time) :
    v.instant ≤ (replies.foldl (fun v reply =>
        LastUpdate.last (LastUpdate.last v reply.CreatedAt) reply.UpdatedAt) v).instant ∧
      ∀ r ∈ replies,
        r.CreatedAt.instant ≤ (replies.foldl (fun v reply =>
          LastUpdate.last (LastUpdate.last v reply.CreatedAt) reply.UpdatedAt) v).instant ∧
        r.UpdatedAt.instant ≤ (replies.foldl (fun v reply =>
          LastUpdate.last (LastUpdate.last v reply.CreatedAt) reply.UpdatedAt) v).instant := by
  induction replies generalizing v with
  | nil => simp
  | cons r0 rest ih =>
    simp only [List.foldl_cons]
    obtain ⟨h1, h2⟩ := ih (LastUpdate.last (LastUpdate.last v r0.CreatedAt) r0.UpdatedAt)
    have hv : (LastUpdate.last (LastUpdate.last v r0.CreatedAt) r0.UpdatedAt).instant =
        max (max v.instant r0.CreatedAt.instant) r0.UpdatedAt.instant := by
      simp [LastUpdate.last_eq]
    rw [hv] at h1
    refine ⟨by omega, ?_⟩
    intro r hr
    rcases List.mem_cons.mp hr with h | h
    · subst h
      constructor <;> omega
    · exact h2 r h

theorem LastUpdate.loop_attained (replies : List Reply) (v : Time) (hv : v.offset = 0) :
    replies.foldl (fun v reply =>
        LastUpdate.last (LastUpdate.last v reply.CreatedAt) reply.UpdatedAt) v = v ∨
      ∃ r ∈ replies,
        replies.foldl (fun v reply =>
          LastUpdate.last (LastUpdate.last v reply.CreatedAt) reply.UpdatedAt) v =
            r.CreatedAt.UTC ∨
        replies.foldl (fun v reply =>
          LastUpdate.last (LastUpdate.last v reply.CreatedAt) reply.UpdatedAt) v =
            r.UpdatedAt.UTC := by
  induction replies generalizing v with
  | nil => simp
  | cons r0 rest ih =>
    simp only [List.foldl_cons]
    have hstep : LastUpdate.last (LastUpdate.last v r0.CreatedAt) r0.UpdatedAt = v ∨
        LastUpdate.last (LastUpdate.last v r0.CreatedAt) r0.UpdatedAt = r0.CreatedAt.UTC ∨
        LastUpdate.last (LastUpdate.last v r0.CreatedAt) r0.UpdatedAt = r0.UpdatedAt.UTC := by
      obtain ⟨vi, vo⟩ := v
      simp only at hv
      subst hv
      simp only [LastUpdate.last_eq, Time.UTC, Time.mk.injEq, and_true]
      omega
    have hoff : (LastUpdate.last (LastUpdate.last v r0.CreatedAt) r0.UpdatedAt).offset = 0 := by
      simp [LastUpdate.last_eq]
    rcases ih _ hoff with h | ⟨r, hr, h⟩
    · rw [h]
      rcases hstep with h1 | h1 | h1
      · exact Or.inl h1
      · exact Or.inr ⟨r0, List.mem_cons_self _ _, Or.inl h1⟩
      · exact Or.inr ⟨r0, List.mem_cons_self _ _, Or.inr h1⟩
    · exact Or.inr ⟨r, List.mem_cons_of_mem _ hr, h⟩

theorem LastUpdate.step_right_comm (v : Time) (r1 r2 : Reply) :
    LastUpdate.last (LastUpdate.last
        (LastUpdate.last (LastUpdate.last v r1.CreatedAt) r1.UpdatedAt) r2.CreatedAt)
        r2.UpdatedAt =
      LastUpdate.last (LastUpdate.last
        (LastUpdate.last (LastUpdate.last v r2.CreatedAt) r2.UpdatedAt) r1.CreatedAt)
        r1.UpdatedAt := by
  simp only [LastUpdate.last_eq, Time.mk.injEq, and_true]
  omega

/-! ## The subscriber list -/

/-- C1: after `AddSubscriber(x)`, whatever the subscriber list was, `x` occurs
exactly once in `Subscribers` and `Subscribed(x)` returns true. -/
theorem addSubscriber_once_and_subscribed (o : RangeOrder UUID Unit) (t : Topic) (x : UUID) :
    (t.AddSubscriber o x).Subscribers.count x = 1 ∧
      (t.AddSubscriber o x).Subscribed x = true := by
  constructor
  · exact List.count_eq_one_of_mem (nodup_addSubscriber o t x)
      ((mem_addSubscriber o t x x).mpr (Or.inl rfl))
  · exact (scan_iff _ x).mpr ((mem_addSubscriber o t x x).mpr (Or.inl rfl))

/-- C2: after `RemoveSubscriber(x)`, whatever the subscriber list was, `x` does
not occur in `Subscribers` and `Subscribed(x)` returns false. -/
theorem removeSubscriber_absent_and_unsubscribed (o : RangeOrder UUID Unit) (t : Topic)
    (x : UUID) :
    x ∉ (t.RemoveSubscriber o x).Subscribers ∧
      (t.RemoveSubscriber o x).Subscribed x = false := by
  have hx : x ∉ (t.RemoveSubscriber o x).Subscribers := fun h =>
    ((mem_removeSubscriber o t x x).mp h).1 rfl
  refine ⟨hx, ?_⟩
  cases hs : (t.RemoveSubscriber o x).Subscribed x with
  | false => rfl
  | true => exact absurd ((scan_iff _ x).mp hs) hx

/-- C3: the list left by `AddSubscriber(x)` and the list left by
`RemoveSubscriber(x)` each contain every identifier at most once, also when the
input list had duplicates. -/
theorem subscribers_normalized (o : RangeOrder UUID Unit) (t : Topic) (x : UUID) :
    (∀ y, (t.AddSubscriber o x).Subscribers.count y ≤ 1) ∧
      (∀ y, (t.RemoveSubscriber o x).Subscribers.count y ≤ 1) :=
  ⟨fun y => List.nodup_iff_count_le_one.mp (nodup_addSubscriber o t x) y,
    fun y => List.nodup_iff_count_le_one.mp (nodup_removeSubscriber o t x) y⟩

/-- C4: `Subscribed(id)` returns true exactly when `id` is an element of the
current `Subscribers` list, and returns false when that list is empty. -/
theorem subscribed_iff_mem (t : Topic) (id : UUID) :
    (t.Subscribed id = true ↔ id ∈ t.Subscribers) ∧
      ({ t with Subscribers := [] } : Topic).Subscribed id = false :=
  ⟨scan_iff t.Subscribers id, rfl⟩

/-- C5: after `AddSubscriber(x)`, an identifier `y` is a member of
`Subscribers` exactly when `y = x` or `y` was a member before the call. -/
theorem addSubscriber_is_union (o : RangeOrder UUID Unit) (t : Topic) (x y : UUID) :
    y ∈ (t.AddSubscriber o x).Subscribers ↔ y = x ∨ y ∈ t.Subscribers :=
  mem_addSubscriber o t x y

/-- C6: after `RemoveSubscriber(x)`, an identifier `y` is a member of
`Subscribers` exactly when `y ≠ x` and `y` was a member before the call. -/
theorem removeSubscriber_removes_only (o : RangeOrder UUID Unit) (t : Topic) (x y : UUID) :
    y ∈ (t.RemoveSubscriber o x).Subscribers ↔ y ≠ x ∧ y ∈ t.Subscribers :=
  mem_removeSubscriber o t x y

/-- C7: `AddSubscriber(x)` applied twice (each call with its own iteration
order) leaves a list with the same members and the same length as applied once;
and when `x` is already in a duplicate-free list, `AddSubscriber(x)` leaves the
members unchanged (the result is a rearrangement of the input). -/
theorem addSubscriber_idempotent (o1 o2 : RangeOrder UUID Unit) (t : Topic) (x : UUID) :
    (∀ y, y ∈ ((t.AddSubscriber o1 x).AddSubscriber o2 x).Subscribers ↔
        y ∈ (t.AddSubscriber o1 x).Subscribers) ∧
      ((t.AddSubscriber o1 x).AddSubscriber o2 x).Subscribers.length =
        (t.AddSubscriber o1 x).Subscribers.length ∧
      (x ∈ t.Subscribers → t.Subscribers.Nodup →
        (∀ y, y ∈ (t.AddSubscriber o1 x).Subscribers ↔ y ∈ t.Subscribers) ∧
          (t.AddSubscriber o1 x).Subscribers.Perm t.Subscribers) := by
  have hmem : ∀ y, y ∈ ((t.AddSubscriber o1 x).AddSubscriber o2 x).Subscribers ↔
      y ∈ (t.AddSubscriber o1 x).Subscribers := by
    intro y
    rw [mem_addSubscriber o2, mem_addSubscriber o1]
    tauto
  refine ⟨hmem, ?_, ?_⟩
  · exact ((List.perm_ext_iff_of_nodup (nodup_addSubscriber o2 _ x)
      (nodup_addSubscriber o1 t x)).mpr hmem).length_eq
  · intro hx hnd
    have h1 : ∀ y, y ∈ (t.AddSubscriber o1 x).Subscribers ↔ y ∈ t.Subscribers := by
      intro y
      rw [mem_addSubscriber o1]
      constructor
      · rintro (h | h)
        · exact h ▸ hx
        · exact h
      · exact Or.inr
    exact ⟨h1, (List.perm_ext_iff_of_nodup (nodup_addSubscriber o1 t x) hnd).mpr h1⟩

/-- Witness for C7 at the list `[1, 2, 3]` and `x = 2`. -/
theorem addSubscriber_idempotent_witness :
    (2 : UUID) ∈ (Topic.ofSubscribers [1, 2, 3]).Subscribers ∧
      (Topic.ofSubscribers [1, 2, 3]).Subscribers.Nodup ∧
      ((Topic.ofSubscribers [1, 2, 3]).AddSubscriber (RangeOrder.reversed UUID Unit)
        2).Subscribers.Perm (Topic.ofSubscribers [1, 2, 3]).Subscribers :=
  ⟨by decide, by decide,
    ((addSubscriber_idempotent (RangeOrder.reversed UUID Unit)
      (RangeOrder.insertion UUID Unit) (Topic.ofSubscribers [1, 2, 3]) 2).2.2
        (by decide) (by decide)).2⟩

/-- C8: `RemoveSubscriber(x)` applied twice (each call with its own iteration
order) leaves a list with the same members and the same length as applied once;
and when `x` is not a member, `RemoveSubscriber(x)` leaves the membership of
every identifier unchanged. -/
theorem removeSubscriber_idempotent (o1 o2 : RangeOrder UUID Unit) (t : Topic) (x : UUID) :
    (∀ y, y ∈ ((t.RemoveSubscriber o1 x).RemoveSubscriber o2 x).Subscribers ↔
        y ∈ (t.RemoveSubscriber o1 x).Subscribers) ∧
      ((t.RemoveSubscriber o1 x).RemoveSubscriber o2 x).Subscribers.length =
        (t.RemoveSubscriber o1 x).Subscribers.length ∧
      (x ∉ t.Subscribers →
        ∀ y, y ∈ (t.RemoveSubscriber o1 x).Subscribers ↔ y ∈ t.Subscribers) := by
  have hmem : ∀ y, y ∈ ((t.RemoveSubscriber o1 x).RemoveSubscriber o2 x).Subscribers ↔
      y ∈ (t.RemoveSubscriber o1 x).Subscribers := by
    intro y
    rw [mem_removeSubscriber o2, mem_removeSubscriber o1]
    tauto
  refine ⟨hmem, ?_, ?_⟩
  · exact ((List.perm_ext_iff_of_nodup (nodup_removeSubscriber o2 _ x)
      (nodup_removeSubscriber o1 t x)).mpr hmem).length_eq
  · intro hx y
    rw [mem_removeSubscriber o1]
    constructor
    · exact fun h => h.2
    · exact fun h => ⟨fun hxy => hx (hxy ▸ h), h⟩

/-- Witness for C8 at the list `[1, 3, 3]` and `x = 2`. -/
theorem removeSubscriber_idempotent_witness :
    (2 : UUID) ∉ (Topic.ofSubscribers [1, 3, 3]).Subscribers ∧
      ∀ y, y ∈ ((Topic.ofSubscribers [1, 3, 3]).RemoveSubscriber
        (RangeOrder.reversed UUID Unit) 2).Subscribers ↔
          y ∈ (Topic.ofSubscribers [1, 3, 3]).Subscribers :=
  ⟨by decide,
    (removeSubscriber_idempotent (RangeOrder.reversed UUID Unit)
      (RangeOrder.insertion UUID Unit) (Topic.ofSubscribers [1, 3, 3]) 2).2.2 (by decide)⟩

/-! ## The contributors of a topic -/

/-- C9, as stated, fails: with topic author `(1, "ann")` and one reply whose
`AuthorID` is `2` while its author record has `ID` `1`, `Authors` returns two
records with the identifier `1`. -/
theorem authors_ids_nodup_counterexample :
    Topic.Authors (RangeOrder.insertion UUID User)
        (Topic.ofThread (some ⟨1, "ann"⟩) [⟨⟨0, 0⟩, ⟨0, 0⟩, 2, some ⟨1, "bob"⟩⟩]) =
      some [⟨1, "ann"⟩, ⟨1, "bob"⟩] ∧
    ¬ (([⟨1, "ann"⟩, ⟨1, "bob"⟩] : List User).map User.ID).Nodup := by
  constructor
  · rfl
  · decide

/-- C9, amended: for a topic with a materialized author and replies in which
every materialized author record has the `ID` named by the reply's `AuthorID`,
`Authors` returns, and no two records it returns have the same `ID`. -/
theorem authors_ids_nodup (o : RangeOrder UUID User) (t : Topic) (a : User)
    (ha : t.Author = some a)
    (hr : ∀ r ∈ t.Replies, ∀ u, r.Author = some u → u.ID = r.AuthorID) :
    ∃ us, t.Authors o = some us ∧ (us.map User.ID).Nodup := by
  unfold Topic.Authors
  rw [ha]
  refine ⟨_, rfl, ?_⟩
  have h0 : KeyedByID (GoMap.assign (GoMap.empty : GoMap UUID User) a.ID a) := by
    constructor
    · simp [GoMap.assign, GoMap.empty, GoMap.keys]
    · intro e he
      simp only [GoMap.assign, GoMap.empty, List.mem_singleton] at he
      subst he
      rfl
  have h1 := Authors.loop_keyed t.Replies _ hr h0
  rw [((collectValues_perm o _).map User.ID).nodup_iff, KeyedByID.ids_eq_keys _ h1.2]
  exact h1.1

/-- Witness for C9 (amended): author `1`, replies by `1`, `2`, `2` and one
reply by `3` whose author record is not loaded. -/
theorem authors_ids_nodup_witness :
    ∃ us, Topic.Authors (RangeOrder.reversed UUID User)
        (Topic.ofThread (some ⟨1, "ann"⟩)
          [⟨⟨0, 0⟩, ⟨0, 0⟩, 1, some ⟨1, "ann"⟩⟩, ⟨⟨0, 0⟩, ⟨0, 0⟩, 2, some ⟨2, "bob"⟩⟩,
            ⟨⟨0, 0⟩, ⟨0, 0⟩, 2, some ⟨2, "bob"⟩⟩, ⟨⟨0, 0⟩, ⟨0, 0⟩, 3, none⟩]) = some us ∧
      (us.map User.ID).Nodup :=
  authors_ids_nodup (RangeOrder.reversed UUID User) _ ⟨1, "ann"⟩ rfl (by decide)

/-- C10: for a topic whose author is materialized, `Authors` returns, and its
result contains the record `*t.Author` itself, whatever the replies carry. -/
theorem authors_contains_topic_author (o : RangeOrder UUID User) (t : Topic) (a : User)
    (ha : t.Author = some a) : ∃ us, t.Authors o = some us ∧ a ∈ us := by
  unfold Topic.Authors
  rw [ha]
  refine ⟨_, rfl, ?_⟩
  rw [(collectValues_perm o _).mem_iff]
  have h0 : (a.ID, a) ∈ GoMap.assign (GoMap.empty : GoMap UUID User) a.ID a := by
    simp [GoMap.assign, GoMap.empty]
  exact List.mem_map_of_mem Prod.snd (Authors.loop_keeps t.Replies _ _ h0)

/-- Witness for C10: the author is `(1, "ann")` and a reply carries another
record, `(1, "bob")`, under the same identifier. -/
theorem authors_contains_topic_author_witness :
    ∃ us, Topic.Authors (RangeOrder.insertion UUID User)
        (Topic.ofThread (some ⟨1, "ann"⟩) [⟨⟨0, 0⟩, ⟨0, 0⟩, 1, some ⟨1, "bob"⟩⟩]) = some us ∧
      (⟨1, "ann"⟩ : User) ∈ us :=
  authors_contains_topic_author (RangeOrder.insertion UUID User) _ ⟨1, "ann"⟩ rfl

/-- C11: for a topic whose author has identifier `A` and replies that each
carry an author record whose `ID` is the reply's `AuthorID`, `Authors` returns,
the identifiers of the returned records are pairwise distinct, and they are
exactly `A` and the `AuthorID`s of the replies. -/
theorem authors_ids_exact (o : RangeOrder UUID User) (t : Topic) (a : User)
    (ha : t.Author = some a)
    (hr : ∀ r ∈ t.Replies, ∃ u, r.Author = some u ∧ u.ID = r.AuthorID) :
    ∃ us, t.Authors o = some us ∧ (us.map User.ID).Nodup ∧
      ∀ j, j ∈ us.map User.ID ↔ j = a.ID ∨ ∃ r ∈ t.Replies, r.AuthorID = j := by
  have hr2 : ∀ r ∈ t.Replies, ∀ u, r.Author = some u → u.ID = r.AuthorID := by
    intro r hmem u hu
    obtain ⟨u2, h1, h2⟩ := hr r hmem
    rw [h1] at hu
    exact (Option.some.inj hu) ▸ h2
  have hk := Authors.keyed_collect a t.Replies hr2
  have hperm := (collectValues_perm o (Authors.collect a t.Replies)).map User.ID
  rw [KeyedByID.ids_eq_keys _ hk.2] at hperm
  refine ⟨_, authors_eq_collect o t a ha, hperm.nodup_iff.mpr hk.1, ?_⟩
  intro j
  rw [hperm.mem_iff, Authors.mem_keys_collect]
  constructor
  · rintro (h | ⟨r, hmem, h, _⟩)
    · exact Or.inl h
    · exact Or.inr ⟨r, hmem, h⟩
  · rintro (h | ⟨r, hmem, h⟩)
    · exact Or.inl h
    · obtain ⟨u, h1, _⟩ := hr r hmem
      exact Or.inr ⟨r, hmem, h, by rw [h1]; rfl⟩

/-- Witness for C11: author `1` with replies by `1`, `2`, `2`, all
materialized, gives the records of `1` and `2`. -/
theorem authors_ids_exact_witness :
    Topic.Authors (RangeOrder.insertion UUID User)
        (Topic.ofThread (some ⟨1, "ann"⟩)
          [⟨⟨0, 0⟩, ⟨0, 0⟩, 1, some ⟨1, "ann"⟩⟩, ⟨⟨0, 0⟩, ⟨0, 0⟩, 2, some ⟨2, "bob"⟩⟩,
            ⟨⟨0, 0⟩, ⟨0, 0⟩, 2, some ⟨2, "bob"⟩⟩]) = some [⟨1, "ann"⟩, ⟨2, "bob"⟩] ∧
      ∃ us, Topic.Authors (RangeOrder.insertion UUID User)
        (Topic.ofThread (some ⟨1, "ann"⟩)
          [⟨⟨0, 0⟩, ⟨0, 0⟩, 1, some ⟨1, "ann"⟩⟩, ⟨⟨0, 0⟩, ⟨0, 0⟩, 2, some ⟨2, "bob"⟩⟩,
            ⟨⟨0, 0⟩, ⟨0, 0⟩, 2, some ⟨2, "bob"⟩⟩]) = some us ∧ (us.map User.ID).Nodup ∧
        ∀ j, j ∈ us.map User.ID ↔ j = 1 ∨ ∃ r ∈ ([⟨⟨0, 0⟩, ⟨0, 0⟩, 1, some ⟨1, "ann"⟩⟩,
          ⟨⟨0, 0⟩, ⟨0, 0⟩, 2, some ⟨2, "bob"⟩⟩,
          ⟨⟨0, 0⟩, ⟨0, 0⟩, 2, some ⟨2, "bob"⟩⟩] : List Reply), r.AuthorID = j :=
  ⟨rfl, authors_ids_exact (RangeOrder.insertion UUID User) _ ⟨1, "ann"⟩ rfl (by decide)⟩

/-- C12, as stated, fails: the topic author is `1`, the first reply has
`AuthorID` `3` and no author record, and `3` is not a key when it is processed;
a second reply by `3` carries the record, and `Authors` returns it. -/
theorem authors_omission_counterexample :
    (3 : UUID) ∉ GoMap.keys (Authors.collect ⟨1, "ann"⟩ []) ∧
      Topic.Authors (RangeOrder.insertion UUID User)
        (Topic.ofThread (some ⟨1, "ann"⟩)
          [⟨⟨0, 0⟩, ⟨0, 0⟩, 3, none⟩, ⟨⟨0, 0⟩, ⟨0, 0⟩, 3, some ⟨3, "cy"⟩⟩]) =
        some [⟨1, "ann"⟩, ⟨3, "cy"⟩] ∧
      ¬ ∀ u ∈ ([⟨1, "ann"⟩, ⟨3, "cy"⟩] : List User), u.ID ≠ 3 := by
  refine ⟨by decide, rfl, by decide⟩

/-- C12, amended: for a topic with a materialized author and a reply `r` whose
author record is absent, whose `AuthorID` is not a key when `r` is processed,
and after which no reply with the same `AuthorID` carries an author record,
`Authors` returns the values of a map in which `r.AuthorID` is not a key; when
moreover every author record carried by a reply has the `ID` named by that
reply's `AuthorID`, no returned record has the identifier `r.AuthorID`. -/
theorem authors_omits_unloaded (o : RangeOrder UUID User) (t : Topic) (a : User)
    (pre post : List Reply) (r : Reply)
    (ha : t.Author = some a) (hsplit : t.Replies = pre ++ r :: post)
    (hnone : r.Author = none)
    (hnew : r.AuthorID ∉ GoMap.keys (Authors.collect a pre))
    (hlater : ∀ r2 ∈ post, r2.AuthorID = r.AuthorID → r2.Author = none) :
    t.Authors o = some (collectValues o (Authors.collect a t.Replies)) ∧
      r.AuthorID ∉ GoMap.keys (Authors.collect a t.Replies) ∧
      ((∀ r2 ∈ t.Replies, ∀ u, r2.Author = some u → u.ID = r2.AuthorID) →
        ∀ u ∈ collectValues o (Authors.collect a t.Replies), u.ID ≠ r.AuthorID) := by
  have hkey : r.AuthorID ∉ GoMap.keys (Authors.collect a t.Replies) := by
    rw [hsplit, Authors.collect_split, Authors.mem_keys_loop, Authors.mem_keys_step]
    rintro ((h | ⟨_, h⟩) | ⟨r2, hmem, h1, h2⟩)
    · exact hnew h
    · rw [hnone] at h
      exact absurd h (by simp)
    · rw [hlater r2 hmem h1] at h2
      exact absurd h2 (by simp)
  refine ⟨authors_eq_collect o t a ha, hkey, ?_⟩
  intro hcons u hu hid
  have hk := Authors.keyed_collect a t.Replies hcons
  have hperm := (collectValues_perm o (Authors.collect a t.Replies)).map User.ID
  rw [KeyedByID.ids_eq_keys _ hk.2] at hperm
  exact hkey (hid ▸ hperm.mem_iff.mp (List.mem_map_of_mem User.ID hu))

/-- Witness for C12 (amended): author `1` and one reply by `3` without an
author record give exactly the record of `1`. -/
theorem authors_omits_unloaded_witness :
    Topic.Authors (RangeOrder.insertion UUID User)
        (Topic.ofThread (some ⟨1, "ann"⟩) [⟨⟨0, 0⟩, ⟨0, 0⟩, 3, none⟩]) = some [⟨1, "ann"⟩] ∧
      (3 : UUID) ∉ GoMap.keys
        (Authors.collect ⟨1, "ann"⟩ [⟨⟨0, 0⟩, ⟨0, 0⟩, 3, none⟩]) :=
  ⟨rfl, (authors_omits_unloaded (RangeOrder.insertion UUID User)
    (Topic.ofThread (some ⟨1, "ann"⟩) [⟨⟨0, 0⟩, ⟨0, 0⟩, 3, none⟩]) ⟨1, "ann"⟩ [] []
    ⟨⟨0, 0⟩, ⟨0, 0⟩, 3, none⟩ rfl rfl rfl (by decide) (by simp)).2.1⟩

/-- C13: when a reply's `AuthorID` is already a key of the map, holding the
record `v`, the reply leaves the map as it is, whatever record the reply
carries; at the end of the loop `v` is still the one record stored under that
key, and `Authors` returns it. -/
theorem authors_first_seen_wins (o : RangeOrder UUID User) (t : Topic) (a : User)
    (pre post : List Reply) (r : Reply) (v : User)
    (ha : t.Author = some a) (hsplit : t.Replies = pre ++ r :: post)
    (hseen : (r.AuthorID, v) ∈ Authors.collect a pre) :
    Authors.step (Authors.collect a pre) r = Authors.collect a pre ∧
      (∀ v2, (r.AuthorID, v2) ∈ Authors.collect a t.Replies ↔ v2 = v) ∧
      ∃ us, t.Authors o = some us ∧ v ∈ us := by
  have hstep : Authors.step (Authors.collect a pre) r = Authors.collect a pre := by
    unfold Authors.step
    rw [if_pos ((GoMap.has_iff _ _).mpr (mem_keys_of_mem _ _ hseen))]
  have hfinal : (r.AuthorID, v) ∈ Authors.collect a t.Replies := by
    rw [hsplit, Authors.collect_split, hstep]
    exact Authors.loop_keeps post _ _ hseen
  refine ⟨hstep, ?_, _, authors_eq_collect o t a ha, ?_⟩
  · intro v2
    constructor
    · intro h2
      exact GoMap.value_unique _ (Authors.nodup_keys_collect a t.Replies) _ v v2 hfinal h2
    · intro h2
      exact h2 ▸ hfinal
  · rw [(collectValues_perm o _).mem_iff]
    exact List.mem_map_of_mem Prod.snd hfinal

/-- Witness for C13: the author is `(1, "ann")`; a reply by `1` carries the
different record `(1, "bob")` and is skipped, so the result is `(1, "ann")`
alone. -/
theorem authors_first_seen_wins_witness :
    Topic.Authors (RangeOrder.insertion UUID User)
        (Topic.ofThread (some ⟨1, "ann"⟩) [⟨⟨0, 0⟩, ⟨0, 0⟩, 1, some ⟨1, "bob"⟩⟩]) =
      some [⟨1, "ann"⟩] ∧
    ∀ v2, ((1 : UUID), v2) ∈
        Authors.collect ⟨1, "ann"⟩ [⟨⟨0, 0⟩, ⟨0, 0⟩, 1, some ⟨1, "bob"⟩⟩] ↔
      v2 = ⟨1, "ann"⟩ :=
  ⟨rfl, (authors_first_seen_wins (RangeOrder.insertion UUID User)
    (Topic.ofThread (some ⟨1, "ann"⟩) [⟨⟨0, 0⟩, ⟨0, 0⟩, 1, some ⟨1, "bob"⟩⟩]) ⟨1, "ann"⟩ [] []
    ⟨⟨0, 0⟩, ⟨0, 0⟩, 1, some ⟨1, "bob"⟩⟩ ⟨1, "ann"⟩ rfl rfl (by decide)).2.1⟩

/-! ## The last activity of a topic -/

/-- C14: `LastUpdate()` is not earlier than the topic's `CreatedAt`, not
earlier than its `UpdatedAt`, and not earlier than the `CreatedAt` and the
`UpdatedAt` of any reply, as instants. -/
theorem lastUpdate_ge_all (t : Topic) :
    t.CreatedAt.instant ≤ t.LastUpdate.instant ∧
      t.UpdatedAt.instant ≤ t.LastUpdate.instant ∧
      ∀ r ∈ t.Replies, r.CreatedAt.instant ≤ t.LastUpdate.instant ∧
        r.UpdatedAt.instant ≤ t.LastUpdate.instant := by
  obtain ⟨h1, h2⟩ := LastUpdate.loop_ge t.Replies (LastUpdate.last t.CreatedAt t.UpdatedAt)
  have h0 : (LastUpdate.last t.CreatedAt t.UpdatedAt).instant =
      max t.CreatedAt.instant t.UpdatedAt.instant := by
    simp [LastUpdate.last_eq]
  rw [h0] at h1
  unfold Topic.LastUpdate
  exact ⟨by omega, by omega, h2⟩

/-- C15: `LastUpdate()` is the UTC form of one of the timestamps of the topic
and its replies, and no timestamp among them is later; with one reply whose
`UpdatedAt` is the latest of the four timestamps the result is that `UpdatedAt`
in UTC; with no replies it is the later of `CreatedAt` and `UpdatedAt` in
UTC. -/
theorem lastUpdate_is_latest (t : Topic) :
    (t.LastUpdate = t.CreatedAt.UTC ∨ t.LastUpdate = t.UpdatedAt.UTC ∨
        ∃ r ∈ t.Replies, t.LastUpdate = r.CreatedAt.UTC ∨ t.LastUpdate = r.UpdatedAt.UTC) ∧
      (t.CreatedAt.instant ≤ t.LastUpdate.instant ∧
        t.UpdatedAt.instant ≤ t.LastUpdate.instant ∧
        ∀ r ∈ t.Replies, r.CreatedAt.instant ≤ t.LastUpdate.instant ∧
          r.UpdatedAt.instant ≤ t.LastUpdate.instant) ∧
      (∀ r, t.Replies = [r] → t.CreatedAt.instant ≤ r.UpdatedAt.instant →
        t.UpdatedAt.instant ≤ r.UpdatedAt.instant →
        r.CreatedAt.instant ≤ r.UpdatedAt.instant → t.LastUpdate = r.UpdatedAt.UTC) ∧
      (t.Replies = [] →
        t.LastUpdate = ⟨max t.CreatedAt.instant t.UpdatedAt.instant, 0⟩) := by
  refine ⟨?_, ?_, ?_, ?_⟩
  · have hoff : (LastUpdate.last t.CreatedAt t.UpdatedAt).offset = 0 := by
      simp [LastUpdate.last_eq]
    have hfirst : LastUpdate.last t.CreatedAt t.UpdatedAt = t.CreatedAt.UTC ∨
        LastUpdate.last t.CreatedAt t.UpdatedAt = t.UpdatedAt.UTC := by
      simp only [LastUpdate.last_eq, Time.UTC, Time.mk.injEq, and_true]
      omega
    unfold Topic.LastUpdate
    rcases LastUpdate.loop_attained t.Replies _ hoff with h | h
    · rw [h]
      rcases hfirst with h1 | h1
      · exact Or.inl h1
      · exact Or.inr (Or.inl h1)
    · exact Or.inr (Or.inr h)
  · obtain ⟨h1, h2⟩ := LastUpdate.loop_ge t.Replies (LastUpdate.last t.CreatedAt t.UpdatedAt)
    have h0 : (LastUpdate.last t.CreatedAt t.UpdatedAt).instant =
        max t.CreatedAt.instant t.UpdatedAt.instant := by
      simp [LastUpdate.last_eq]
    rw [h0] at h1
    unfold Topic.LastUpdate
    exact ⟨by omega, by omega, h2⟩
  · intro r hr h1 h2 h3
    unfold Topic.LastUpdate
    rw [hr]
    simp only [List.foldl_cons, List.foldl_nil, LastUpdate.last_eq, Time.UTC, Time.mk.injEq,
      and_true]
    omega
  · intro hr
    unfold Topic.LastUpdate
    rw [hr]
    simp [LastUpdate.last_eq]

/-- Witness for C15: created at `10` and updated at `20` (both shown one hour
east of UTC), one reply created at `15` and updated at `30` (shown two hours
west): the result is the instant `30` in UTC. -/
theorem lastUpdate_is_latest_witness :
    (Topic.ofTimes ⟨10, 3600⟩ ⟨20, 3600⟩
      [⟨⟨15, -7200⟩, ⟨30, -7200⟩, 2, none⟩]).LastUpdate = ⟨30, 0⟩ :=
  (lastUpdate_is_latest (Topic.ofTimes ⟨10, 3600⟩ ⟨20, 3600⟩
    [⟨⟨15, -7200⟩, ⟨30, -7200⟩, 2, none⟩])).2.2.1 ⟨⟨15, -7200⟩, ⟨30, -7200⟩, 2, none⟩ rfl
    (by decide) (by decide) (by decide)

/-- C16: the closure `last` is commutative and associative, and `LastUpdate()`
returns the same value when the replies are permuted, when the topic's
`CreatedAt` and `UpdatedAt` are swapped, and when the `CreatedAt` and
`UpdatedAt` of a reply are swapped. -/
theorem lastUpdate_order_independent :
    (∀ a b, LastUpdate.last a b = LastUpdate.last b a) ∧
      (∀ a b c, LastUpdate.last (LastUpdate.last a b) c =
        LastUpdate.last a (LastUpdate.last b c)) ∧
      (∀ (t : Topic) (l : List Reply), l.Perm t.Replies →
        ({ t with Replies := l } : Topic).LastUpdate = t.LastUpdate) ∧
      (∀ t : Topic, ({ t with CreatedAt := t.UpdatedAt, UpdatedAt := t.CreatedAt } :
        Topic).LastUpdate = t.LastUpdate) ∧
      (∀ (t : Topic) (pre post : List Reply) (r : Reply),
        ({ t with Replies := pre ++
            { r with CreatedAt := r.UpdatedAt, UpdatedAt := r.CreatedAt } :: post } :
          Topic).LastUpdate =
        ({ t with Replies := pre ++ r :: post } : Topic).LastUpdate) := by
  refine ⟨?_, ?_, ?_, ?_, ?_⟩
  · intro a b
    simp only [LastUpdate.last_eq, Time.mk.injEq, and_true]
    exact max_comm _ _
  · intro a b c
    simp only [LastUpdate.last_eq, Time.mk.injEq, and_true]
    exact max_assoc _ _ _
  · intro t l hl
    unfold Topic.LastUpdate
    exact hl.foldl_eq' (fun r1 _ r2 _ v => LastUpdate.step_right_comm v r1 r2) _
  · intro t
    unfold Topic.LastUpdate
    have h : LastUpdate.last t.UpdatedAt t.CreatedAt =
        LastUpdate.last t.CreatedAt t.UpdatedAt := by
      simp only [LastUpdate.last_eq, Time.mk.injEq, and_true]
      exact max_comm _ _
    simp only [h]
  · intro t pre post r
    unfold Topic.LastUpdate
    simp only [List.foldl_append, List.foldl_cons]
    congr 1
    simp only [LastUpdate.last_eq, Time.mk.injEq, and_true]
    omega

/-- Witness for C16: two replies in either order give the same result, the
instant `30` in UTC. -/
theorem lastUpdate_order_independent_witness :
    (Topic.ofTimes ⟨10, 3600⟩ ⟨20, 0⟩
        [⟨⟨30, -7200⟩, ⟨25, 0⟩, 2, none⟩, ⟨⟨15, 0⟩, ⟨18, 0⟩, 3, none⟩]).LastUpdate =
      (Topic.ofTimes ⟨10, 3600⟩ ⟨20, 0⟩
        [⟨⟨15, 0⟩, ⟨18, 0⟩, 3, none⟩, ⟨⟨30, -7200⟩, ⟨25, 0⟩, 2, none⟩]).LastUpdate :=
  lastUpdate_order_independent.2.2.1
    (Topic.ofTimes ⟨10, 3600⟩ ⟨20, 0⟩
      [⟨⟨15, 0⟩, ⟨18, 0⟩, 3, none⟩, ⟨⟨30, -7200⟩, ⟨25, 0⟩, 2, none⟩])
    [⟨⟨30, -7200⟩, ⟨25, 0⟩, 2, none⟩, ⟨⟨15, 0⟩, ⟨18, 0⟩, 3, none⟩]
    (List.Perm.swap _ _ _)

/-! ## Frame, totality and edge cases -/

/-- C17: `AddSubscriber` and `RemoveSubscriber` leave `ID`, `CreatedAt`,
`UpdatedAt`, `Title`, `Content`, `AuthorID`, `CategoryID`, `Deleted`, `Author`,
`Category` and `Replies` as they were. -/
theorem subscriber_ops_frame (o : RangeOrder UUID Unit) (t : Topic) (x : UUID) :
    ((t.AddSubscriber o x).ID = t.ID ∧ (t.AddSubscriber o x).CreatedAt = t.CreatedAt ∧
        (t.AddSubscriber o x).UpdatedAt = t.UpdatedAt ∧
        (t.AddSubscriber o x).Title = t.Title ∧ (t.AddSubscriber o x).Content = t.Content ∧
        (t.AddSubscriber o x).AuthorID = t.AuthorID ∧
        (t.AddSubscriber o x).CategoryID = t.CategoryID ∧
        (t.AddSubscriber o x).Deleted = t.Deleted ∧ (t.AddSubscriber o x).Author = t.Author ∧
        (t.AddSubscriber o x).Category = t.Category ∧
        (t.AddSubscriber o x).Replies = t.Replies) ∧
      ((t.RemoveSubscriber o x).ID = t.ID ∧
        (t.RemoveSubscriber o x).CreatedAt = t.CreatedAt ∧
        (t.RemoveSubscriber o x).UpdatedAt = t.UpdatedAt ∧
        (t.RemoveSubscriber o x).Title = t.Title ∧
        (t.RemoveSubscriber o x).Content = t.Content ∧
        (t.RemoveSubscriber o x).AuthorID = t.AuthorID ∧
        (t.RemoveSubscriber o x).CategoryID = t.CategoryID ∧
        (t.RemoveSubscriber o x).Deleted = t.Deleted ∧
        (t.RemoveSubscriber o x).Author = t.Author ∧
        (t.RemoveSubscriber o x).Category = t.Category ∧
        (t.RemoveSubscriber o x).Replies = t.Replies) :=
  ⟨⟨rfl, rfl, rfl, rfl, rfl, rfl, rfl, rfl, rfl, rfl, rfl⟩,
    ⟨rfl, rfl, rfl, rfl, rfl, rfl, rfl, rfl, rfl, rfl, rfl⟩⟩

/-- C18: `Subscribed`, `AddSubscriber`, `RemoveSubscriber` and `LastUpdate`
produce a result on every topic, and `Authors` produces a list (it does not
panic) on every topic whose author is materialized, whatever the replies. -/
theorem operations_total (o : RangeOrder UUID Unit) (ou : RangeOrder UUID User) (t : Topic)
    (id : UUID) :
    (∃ b, t.Subscribed id = b) ∧ (∃ t2, t.AddSubscriber o id = t2) ∧
      (∃ t2, t.RemoveSubscriber o id = t2) ∧ (∃ v, t.LastUpdate = v) ∧
      (∀ a, t.Author = some a → ∃ us, t.Authors ou = some us) :=
  ⟨⟨_, rfl⟩, ⟨_, rfl⟩, ⟨_, rfl⟩, ⟨_, rfl⟩, fun a ha => ⟨_, authors_eq_collect ou t a ha⟩⟩

/-- Witness for C18: a topic with an empty subscriber list, an author and two
replies, one of them without an author record. -/
theorem operations_total_witness :
    ∃ us, Topic.Authors (RangeOrder.reversed UUID User)
      (Topic.ofThread (some ⟨1, "ann"⟩)
        [⟨⟨0, 0⟩, ⟨0, 0⟩, 2, none⟩, ⟨⟨0, 0⟩, ⟨0, 0⟩, 3, some ⟨3, "cy"⟩⟩]) = some us :=
  (operations_total (RangeOrder.insertion UUID Unit) (RangeOrder.reversed UUID User)
    (Topic.ofThread (some ⟨1, "ann"⟩)
      [⟨⟨0, 0⟩, ⟨0, 0⟩, 2, none⟩, ⟨⟨0, 0⟩, ⟨0, 0⟩, 3, some ⟨3, "cy"⟩⟩]) 5).2.2.2.2
    ⟨1, "ann"⟩ rfl

/-- C19: on a topic with no subscribers, `AddSubscriber(x)` leaves the list
`[x]` and `RemoveSubscriber(x)` leaves the empty list. -/
theorem subscriber_ops_on_empty (o : RangeOrder UUID Unit) (t : Topic) (x : UUID) :
    (({ t with Subscribers := [] } : Topic).AddSubscriber o x).Subscribers = [x] ∧
      (({ t with Subscribers := [] } : Topic).RemoveSubscriber o x).Subscribers = [] := by
  constructor
  · have h := collectKeys_perm o (GoMap.assign (GoMap.empty : GoMap UUID Unit) x ())
    exact List.perm_singleton.mp h
  · have h := collectKeys_perm o (GoMap.empty : GoMap UUID Unit)
    exact List.perm_nil.mp h

/-- C20: when `x` is not a subscriber, `AddSubscriber(x)` followed by
`RemoveSubscriber(x)` leaves a duplicate-free list whose members are those of
the original list and whose length is the number of distinct identifiers in
the original list. -/
theorem add_then_remove_roundtrip (o1 o2 : RangeOrder UUID Unit) (t : Topic) (x : UUID)
    (hx : x ∉ t.Subscribers) :
    (∀ y, y ∈ ((t.AddSubscriber o1 x).RemoveSubscriber o2 x).Subscribers ↔
        y ∈ t.Subscribers) ∧
      ((t.AddSubscriber o1 x).RemoveSubscriber o2 x).Subscribers.Nodup ∧
      ((t.AddSubscriber o1 x).RemoveSubscriber o2 x).Subscribers.length =
        t.Subscribers.dedup.length := by
  have hmem : ∀ y, y ∈ ((t.AddSubscriber o1 x).RemoveSubscriber o2 x).Subscribers ↔
      y ∈ t.Subscribers := by
    intro y
    rw [mem_removeSubscriber o2, mem_addSubscriber o1]
    constructor
    · rintro ⟨h1, h2 | h2⟩
      · exact absurd h2 h1
      · exact h2
    · exact fun h => ⟨fun hxy => hx (hxy ▸ h), Or.inr h⟩
  have hnd := nodup_removeSubscriber o2 (t.AddSubscriber o1 x) x
  refine ⟨hmem, hnd, ?_⟩
  apply List.Perm.length_eq
  rw [List.perm_ext_iff_of_nodup hnd (List.nodup_dedup _)]
  intro y
  rw [hmem, List.mem_dedup]

/-- Witness for C20 at the list `[1, 3, 3]` and `x = 2`: two distinct
identifiers remain. -/
theorem add_then_remove_roundtrip_witness :
    (2 : UUID) ∉ (Topic.ofSubscribers [1, 3, 3]).Subscribers ∧
      (((Topic.ofSubscribers [1, 3, 3]).AddSubscriber (RangeOrder.insertion UUID Unit)
        2).RemoveSubscriber (RangeOrder.reversed UUID Unit) 2).Subscribers.length =
        (Topic.ofSubscribers [1, 3, 3]).Subscribers.dedup.length :=
  ⟨by decide,
    (add_then_remove_roundtrip (RangeOrder.insertion UUID Unit)
      (RangeOrder.reversed UUID Unit) (Topic.ofSubscribers [1, 3, 3]) 2 (by decide)).2.2⟩

end Saloon
